import Mathlib

/-!
Verification of the InformationGain impurity criterion of mlpack
(src/mlpack/methods/decision_tree/information_gain.hpp), shallowly embedded
over the reals: machine doubles are modelled by real numbers and the library
function log2 by the real base-2 logarithm. A label row is a list of
naturals, a weight row a list of reals, aligned by index via zipping. The
accumulation loops of Evaluate write into a zero-initialised buffer indexed
by class; the buffer is modelled as a total map from naturals to reals
updated by a left fold over the zipped rows, mirroring the loops
  counts[labels[i]] += weights[i]; accWeights += weights[i]   (weighted)
  counts[labels[i]]++                                          (unweighted)
of the source.
-/

namespace InformationGain

/-- The real base-2 logarithm, modelling the call to log2 on doubles. -/
noncomputable def log2 (x : ℝ) : ℝ := Real.logb 2 x

/-- Body of the per-class gain loop of Evaluate:
given the class frequency f, add f * log2(f) when f is positive
(the source guard is written f > 0.0), else nothing. -/
noncomputable def gainTerm (f : ℝ) : ℝ := if 0 < f then f * log2 f else 0

/-- The unweighted counting loop of Evaluate: starting from the
zero-initialised buffer, perform counts[labels[i]]++ for each i. -/
def accumU (labels : List ℕ) : ℕ → ℝ :=
  labels.foldl (fun counts l => Function.update counts l (counts l + 1)) (fun _ => 0)

/-- The weighted counting loop of Evaluate: starting from the
zero-initialised buffer and a zero total, perform
counts[labels[i]] += weights[i] and accWeights += weights[i] for each i;
returns the pair (counts, accWeights). -/
def accumW (labels : List ℕ) (weights : List ℝ) : (ℕ → ℝ) × ℝ :=
  (labels.zip weights).foldl
    (fun acc p => (Function.update acc.1 p.1 (acc.1 p.1 + p.2), acc.2 + p.2))
    (fun _ => 0, 0)

/-- InformationGain::Evaluate with template parameter UseWeights:
return 0 on an empty row; in weighted mode accumulate per-class weighted
counts and the total weight, return 0 when the total weight is zero, and
otherwise sum f * log2(f) over classes with positive frequency
f = counts[i] / accWeights; in unweighted mode likewise with
f = counts[i] / n. -/
noncomputable def Evaluate (UseWeights : Bool) (labels : List ℕ)
    (numClasses : ℕ) (weights : List ℝ) : ℝ :=
  if labels.length = 0 then 0
  else if UseWeights then
    let acc := accumW labels weights
    if acc.2 = 0 then 0
    else ∑ c in Finset.range numClasses, gainTerm (acc.1 c / acc.2)
  else
    ∑ c in Finset.range numClasses, gainTerm (accumU labels c / (labels.length : ℝ))

/-- InformationGain::Range: the range of the criterion for a given number
of classes, log2(numClasses). -/
noncomputable def Range (numClasses : ℕ) : ℝ := log2 (numClasses : ℝ)

/-- Closed form of the per-class weighted count: the sum of the weights of
the points carrying that class. -/
def wcount (labels : List ℕ) (weights : List ℝ) (c : ℕ) : ℝ :=
  (((labels.zip weights).filter (fun p => p.1 = c)).map Prod.snd).sum

/-- Closed form of the accumulated total weight: the sum of the weights of
all (index-aligned) points. -/
def totalW (labels : List ℕ) (weights : List ℝ) : ℝ :=
  ((labels.zip weights).map Prod.snd).sum

/-- Spec-side definition, following the words of the specification:
the sum, over the classes c with positive frequency, of f_c * log2(f_c),
for a given frequency assignment f. -/
noncomputable def specGain (freq : ℕ → ℝ) (numClasses : ℕ) : ℝ :=
  ∑ c in (Finset.range numClasses).filter (fun c => 0 < freq c),
    freq c * log2 (freq c)

lemma foldU_apply (labels : List ℕ) (g : ℕ → ℝ) (c : ℕ) :
    (labels.foldl (fun counts l => Function.update counts l (counts l + 1)) g) c
      = g c + (labels.count c : ℝ) := by
  induction labels generalizing g with
  | nil => simp
  | cons a l ih =>
    simp only [List.foldl_cons, ih, List.count_cons]
    by_cases hac : c = a
    · subst hac
      simp [Function.update_same]
      ring
    · rw [Function.update_noteq hac]
      have : ¬ (a == c) = true := by
        simp only [beq_iff_eq]
        exact fun h => hac h.symm
      simp [this]

lemma accumU_eq (labels : List ℕ) (c : ℕ) :
    accumU labels c = (labels.count c : ℝ) := by
  simpa using foldU_apply labels (fun _ => 0) c

lemma foldW_apply (ps : List (ℕ × ℝ)) (g : ℕ → ℝ) (t : ℝ) (c : ℕ) :
    ((ps.foldl
        (fun acc p => (Function.update acc.1 p.1 (acc.1 p.1 + p.2), acc.2 + p.2))
        (g, t)).1) c
      = g c + ((ps.filter (fun p => p.1 = c)).map Prod.snd).sum := by
  induction ps generalizing g t with
  | nil => simp
  | cons a l ih =>
    simp only [List.foldl_cons, ih]
    by_cases hac : a.1 = c
    · subst hac
      simp [Function.update_same]
      ring
    · rw [Function.update_noteq (fun h => hac h.symm)]
      simp [hac]

lemma foldW_total (ps : List (ℕ × ℝ)) (g : ℕ → ℝ) (t : ℝ) :
    ((ps.foldl
        (fun acc p => (Function.update acc.1 p.1 (acc.1 p.1 + p.2), acc.2 + p.2))
        (g, t)).2)
      = t + (ps.map Prod.snd).sum := by
  induction ps generalizing g t with
  | nil => simp
  | cons a l ih =>
    simp only [List.foldl_cons, ih, List.map_cons, List.sum_cons]
    ring

lemma accumW_fst (labels : List ℕ) (weights : List ℝ) (c : ℕ) :
    (accumW labels weights).1 c = wcount labels weights c := by
  simpa [wcount] using
    foldW_apply (labels.zip weights) (fun _ => 0) 0 c

lemma accumW_snd (labels : List ℕ) (weights : List ℝ) :
    (accumW labels weights).2 = totalW labels weights := by
  simpa [totalW] using foldW_total (labels.zip weights) (fun _ => 0) 0

lemma evaluate_false_eq (labels : List ℕ) (k : ℕ) (w : List ℝ)
    (hne : labels ≠ []) :
    Evaluate false labels k w
      = ∑ c in Finset.range k,
          gainTerm ((labels.count c : ℝ) / (labels.length : ℝ)) := by
  have hlen : labels.length ≠ 0 := by simpa using hne
  simp only [Evaluate, if_neg hlen, Bool.false_eq_true, if_false, accumU_eq]

lemma evaluate_true_eq (labels : List ℕ) (k : ℕ) (w : List ℝ)
    (hne : labels ≠ []) (ht : totalW labels w ≠ 0) :
    Evaluate true labels k w
      = ∑ c in Finset.range k,
          gainTerm (wcount labels w c / totalW labels w) := by
  have hlen : labels.length ≠ 0 := by simpa using hne
  simp only [Evaluate, if_neg hlen, if_true, accumW_snd, accumW_fst, if_neg ht]

lemma evaluate_true_zero (labels : List ℕ) (k : ℕ) (w : List ℝ)
    (ht : totalW labels w = 0) :
    Evaluate true labels k w = 0 := by
  by_cases h : labels.length = 0 <;>
    simp [Evaluate, h, accumW_snd, ht]

lemma sum_count (labels : List ℕ) (k : ℕ) (h : ∀ l ∈ labels, l < k) :
    ∑ c in Finset.range k, (labels.count c : ℝ) = (labels.length : ℝ) := by
  induction labels with
  | nil => simp
  | cons a l ih =>
    have ha : a ∈ Finset.range k := Finset.mem_range.mpr (h a (by simp))
    have hl : ∀ x ∈ l, x < k := fun x hx => h x (by simp [hx])
    have hcount : ∀ c, ((a :: l).count c : ℝ)
        = (l.count c : ℝ) + (if c = a then (1:ℝ) else 0) := by
      intro c
      by_cases hc : c = a <;> simp [List.count_cons, hc]
    simp only [hcount]
    rw [Finset.sum_add_distrib, ih hl, Finset.sum_ite_eq' (Finset.range k) a
      (fun _ => (1:ℝ)), if_pos ha]
    simp

lemma sum_csum (ps : List (ℕ × ℝ)) (k : ℕ) (h : ∀ p ∈ ps, p.1 < k) :
    ∑ c in Finset.range k, ((ps.filter (fun p => p.1 = c)).map Prod.snd).sum
      = (ps.map Prod.snd).sum := by
  induction ps with
  | nil => simp
  | cons a l ih =>
    have ha : a.1 ∈ Finset.range k := Finset.mem_range.mpr (h a (by simp))
    have hl : ∀ p ∈ l, p.1 < k := fun p hp => h p (by simp [hp])
    have hterm : ∀ c, (((a :: l).filter (fun p => p.1 = c)).map Prod.snd).sum
        = (if a.1 = c then a.2 else 0)
          + ((l.filter (fun p => p.1 = c)).map Prod.snd).sum := by
      intro c
      by_cases hc : a.1 = c <;> simp [List.filter_cons, hc]
    simp only [hterm]
    rw [Finset.sum_add_distrib, ih hl, Finset.sum_ite_eq (Finset.range k) a.1
      (fun _ => a.2), if_pos ha]
    simp

lemma sum_wcount (labels : List ℕ) (w : List ℝ) (k : ℕ)
    (h : ∀ l ∈ labels, l < k) :
    ∑ c in Finset.range k, wcount labels w c = totalW labels w :=
  sum_csum (labels.zip w) k
    (fun p hp => h p.1 (List.of_mem_zip hp).1)

lemma wcount_nonneg (labels : List ℕ) (w : List ℝ) (c : ℕ)
    (hw : ∀ x ∈ w, 0 ≤ x) :
    0 ≤ wcount labels w c := by
  refine List.sum_nonneg ?_
  intro x hx
  rcases List.mem_map.mp hx with ⟨p, hp, hpx⟩
  have hpz : p ∈ labels.zip w := List.mem_of_mem_filter hp
  have : p.2 ∈ w := (List.of_mem_zip hpz).2
  rw [← hpx]
  exact hw _ this

lemma totalW_nonneg (labels : List ℕ) (w : List ℝ)
    (hw : ∀ x ∈ w, 0 ≤ x) :
    0 ≤ totalW labels w := by
  refine List.sum_nonneg ?_
  intro x hx
  rcases List.mem_map.mp hx with ⟨p, hp, hpx⟩
  have : p.2 ∈ w := (List.of_mem_zip hp).2
  rw [← hpx]
  exact hw _ this

lemma filter_map_snd_sum_le (ps : List (ℕ × ℝ)) (q : ℕ × ℝ → Bool)
    (h : ∀ p ∈ ps, 0 ≤ p.2) :
    ((ps.filter q).map Prod.snd).sum ≤ (ps.map Prod.snd).sum := by
  induction ps with
  | nil => simp
  | cons a l ih =>
    have ha : 0 ≤ a.2 := h a (by simp)
    have hl : ∀ p ∈ l, 0 ≤ p.2 := fun p hp => h p (by simp [hp])
    by_cases hq : q a = true
    · simp only [List.filter_cons, hq, if_true, List.map_cons, List.sum_cons]
      exact add_le_add_left (ih hl) _
    · simp only [List.filter_cons, hq, if_false, List.map_cons, List.sum_cons]
      exact le_trans (ih hl) (le_add_of_nonneg_left ha)

lemma wcount_le_totalW (labels : List ℕ) (w : List ℝ) (c : ℕ)
    (hw : ∀ x ∈ w, 0 ≤ x) :
    wcount labels w c ≤ totalW labels w :=
  filter_map_snd_sum_le (labels.zip w) _
    (fun p hp => hw p.2 (List.of_mem_zip hp).2)

lemma gainTerm_nonpos {f : ℝ} (hf : f ≤ 1) : gainTerm f ≤ 0 := by
  unfold gainTerm log2
  split
  · rename_i hpos
    refine mul_nonpos_iff.mpr (Or.inl ⟨hpos.le, ?_⟩)
    exact Real.logb_nonpos (by norm_num) hpos.le hf
  · exact le_refl 0

lemma sum_gainTerm_nonpos (k : ℕ) (p : ℕ → ℝ)
    (h : ∀ c ∈ Finset.range k, p c ≤ 1) :
    ∑ c in Finset.range k, gainTerm (p c) ≤ 0 :=
  Finset.sum_nonpos (fun c hc => gainTerm_nonpos (h c hc))

lemma gibbs_log (k : ℕ) (p : ℕ → ℝ)
    (h0 : ∀ c ∈ Finset.range k, 0 ≤ p c)
    (h1 : ∑ c in Finset.range k, p c = 1) :
    -Real.log (k : ℝ)
      ≤ ∑ c in Finset.range k, (if 0 < p c then p c * Real.log (p c) else 0) := by
  classical
  have hk : 0 < k := by
    by_contra hk
    have hk0 : k = 0 := Nat.le_zero.mp (Nat.not_lt.mp hk)
    rw [hk0] at h1
    simp at h1
  have hkR : (0:ℝ) < (k:ℝ) := Nat.cast_pos.mpr hk
  set S := (Finset.range k).filter (fun c => 0 < p c) with hS
  have hSsum : ∑ c in S, p c = 1 := by
    rw [hS, Finset.sum_filter_of_ne (fun x hx hne => (h0 x hx).lt_of_ne (Ne.symm hne))]
    exact h1
  have hgoal : ∑ c in Finset.range k, (if 0 < p c then p c * Real.log (p c) else 0)
      = ∑ c in S, p c * Real.log (p c) := (Finset.sum_filter _ _).symm
  have key : ∀ c ∈ S, p c - 1/(k:ℝ) ≤ p c * Real.log (p c) + p c * Real.log (k:ℝ) := by
    intro c hc
    have hpc : 0 < p c := (Finset.mem_filter.mp hc).2
    have hx : (0:ℝ) < ((k:ℝ) * p c)⁻¹ := inv_pos.mpr (mul_pos hkR hpc)
    have hlog := Real.log_le_sub_one_of_pos hx
    rw [Real.log_inv] at hlog
    have hmul : Real.log ((k:ℝ) * p c) = Real.log (k:ℝ) + Real.log (p c) :=
      Real.log_mul (ne_of_gt hkR) (ne_of_gt hpc)
    have h2 : 1 - ((k:ℝ) * p c)⁻¹ ≤ Real.log (k:ℝ) + Real.log (p c) := by
      rw [← hmul]; linarith
    have h3 := mul_le_mul_of_nonneg_left h2 hpc.le
    have hk0 : (k:ℝ) ≠ 0 := ne_of_gt hkR
    have hp0 : p c ≠ 0 := ne_of_gt hpc
    have hinv : p c * ((k:ℝ) * p c)⁻¹ = 1/(k:ℝ) := by
      field_simp
      ring
    calc p c - 1/(k:ℝ) = p c * (1 - ((k:ℝ) * p c)⁻¹) := by
          rw [mul_sub, mul_one, hinv]
      _ ≤ p c * (Real.log (k:ℝ) + Real.log (p c)) := h3
      _ = p c * Real.log (p c) + p c * Real.log (k:ℝ) := by ring
  have hsum := Finset.sum_le_sum key
  have hL : ∑ c in S, (p c - 1/(k:ℝ)) = 1 - (S.card : ℝ) * (1/(k:ℝ)) := by
    rw [Finset.sum_sub_distrib, hSsum, Finset.sum_const, nsmul_eq_mul]
  have hR : ∑ c in S, (p c * Real.log (p c) + p c * Real.log (k:ℝ))
      = (∑ c in S, p c * Real.log (p c)) + Real.log (k:ℝ) := by
    rw [Finset.sum_add_distrib, ← Finset.sum_mul, hSsum, one_mul]
  have hcard : (S.card : ℝ) ≤ (k:ℝ) := by
    have := (Finset.card_filter_le (Finset.range k) (fun c => 0 < p c)).trans
      (le_of_eq (Finset.card_range k))
    exact_mod_cast this
  have hfrac : (S.card : ℝ) * (1/(k:ℝ)) ≤ 1 := by
    rw [mul_one_div]
    exact (div_le_one hkR).mpr hcard
  rw [hgoal]
  rw [hL, hR] at hsum
  linarith

lemma gibbs_gainTerm (k : ℕ) (p : ℕ → ℝ)
    (h0 : ∀ c ∈ Finset.range k, 0 ≤ p c)
    (h1 : ∑ c in Finset.range k, p c = 1) :
    -Real.logb 2 (k : ℝ) ≤ ∑ c in Finset.range k, gainTerm (p c) := by
  have hlog2 : (0:ℝ) < Real.log 2 := Real.log_pos (by norm_num)
  have h := gibbs_log k p h0 h1
  have hEq : ∑ c in Finset.range k, gainTerm (p c)
      = (∑ c in Finset.range k, (if 0 < p c then p c * Real.log (p c) else 0))
          / Real.log 2 := by
    rw [Finset.sum_div]
    refine Finset.sum_congr rfl (fun c _ => ?_)
    unfold gainTerm log2
    split
    · rw [← Real.log_div_log, mul_div_assoc]
    · simp
  rw [hEq, ← Real.log_div_log, ← neg_div]
  exact (div_le_div_iff_of_pos_right hlog2).mpr h

lemma gainTerm_of_nonpos {x : ℝ} (h : x ≤ 0) : gainTerm x = 0 := by
  unfold gainTerm
  rw [if_neg (not_lt.mpr h)]

lemma specGain_eq (freq : ℕ → ℝ) (k : ℕ) :
    specGain freq k = ∑ c in Finset.range k, gainTerm (freq c) := by
  unfold specGain gainTerm
  exact Finset.sum_filter _ _

lemma log2_self : log2 2 = 1 := by
  unfold log2
  exact Real.logb_self_eq_one (by norm_num)

lemma log2_inv_eq (x : ℝ) : log2 x⁻¹ = -log2 x := by
  unfold log2
  exact Real.logb_inv x

lemma gainTerm_half : gainTerm (1/2 : ℝ) = -(1/2) := by
  unfold gainTerm
  rw [if_pos (by norm_num : (0:ℝ) < 1/2)]
  rw [show (1/2 : ℝ) = 2⁻¹ by norm_num, log2_inv_eq, log2_self]
  norm_num

/-- Claim C3: for every number of classes at least one and in both modes,
Evaluate applied to an empty label row returns exactly zero. -/
theorem evaluate_empty (b : Bool) (numClasses : ℕ) (weights : List ℝ)
    (_h : 1 ≤ numClasses) : Evaluate b [] numClasses weights = 0 := by
  simp [Evaluate]

theorem evaluate_empty_witness :
    Evaluate true ([] : List ℕ) 1 ([] : List ℝ) = 0 :=
  evaluate_empty true 1 [] (by norm_num)

/-- Claim C4: in weighted mode, a non-empty label row whose index-aligned
weights sum to exactly zero yields zero regardless of the labels, via the
zero-total-weight guard rather than a division by zero. -/
theorem evaluate_zero_total_weight (labels : List ℕ) (numClasses : ℕ)
    (w : List ℝ) (_hne : labels ≠ []) (hlen : w.length = labels.length)
    (hsum : w.sum = 0) :
    Evaluate true labels numClasses w = 0 := by
  have ht : totalW labels w = 0 := by
    unfold totalW
    rw [List.map_snd_zip labels w (le_of_eq hlen)]
    exact hsum
  exact evaluate_true_zero labels numClasses w ht

theorem evaluate_zero_total_weight_witness :
    Evaluate true [0, 1] 2 [0, 0] = 0 :=
  evaluate_zero_total_weight [0, 1] 2 [0, 0] (by decide) (by decide) (by norm_num)

/-- Claim C6: for every positive number of classes, Range returns the
base-2 logarithm of that number; in particular Range 1 = 0, Range 4 = 2 and
Range 8 = 3, and Range depends on nothing but its argument. -/
theorem range_is_log2 :
    (∀ n : ℕ, 0 < n → Range n = log2 (n : ℝ))
      ∧ Range 1 = 0 ∧ Range 4 = 2 ∧ Range 8 = 3 := by
  refine ⟨fun n _ => rfl, ?_, ?_, ?_⟩
  · unfold Range log2
    norm_num
  · unfold Range log2
    rw [show ((4 : ℕ) : ℝ) = 2 ^ (2 : ℕ) by norm_num, Real.logb_pow,
      Real.logb_self_eq_one (by norm_num)]
    norm_num
  · unfold Range log2
    rw [show ((8 : ℕ) : ℝ) = 2 ^ (3 : ℕ) by norm_num, Real.logb_pow,
      Real.logb_self_eq_one (by norm_num)]
    norm_num

theorem range_is_log2_witness : Range 2 = log2 ((2 : ℕ) : ℝ) :=
  range_is_log2.1 2 (by norm_num)

/-- Claim C1: for every non-empty label row with labels below the class
count, Evaluate returns the sum, over the classes with positive (weighted)
frequency, of f * log2(f), where f is the class count over the row length
in unweighted mode and the weighted class count over the total weight in
weighted mode; in particular the row [0,0,1,1] with two classes evaluates,
unweighted, to -1. -/
theorem evaluate_matches_specGain :
    (∀ (labels : List ℕ) (k : ℕ) (w : List ℝ), labels ≠ [] →
        (∀ l ∈ labels, l < k) →
        Evaluate false labels k w
            = specGain (fun c => (labels.count c : ℝ) / (labels.length : ℝ)) k
          ∧ Evaluate true labels k w
            = specGain (fun c => wcount labels w c / totalW labels w) k)
      ∧ Evaluate false [0, 0, 1, 1] 2 [] = -1 := by
  constructor
  · intro labels k w hne _hin
    constructor
    · rw [evaluate_false_eq labels k w hne, specGain_eq]
    · by_cases ht : totalW labels w = 0
      · rw [evaluate_true_zero labels k w ht, specGain_eq]
        symm
        apply Finset.sum_eq_zero
        intro c _
        rw [ht, div_zero]
        exact gainTerm_of_nonpos (le_refl 0)
      · rw [evaluate_true_eq labels k w hne ht, specGain_eq]
  · rw [evaluate_false_eq [0, 0, 1, 1] 2 [] (by decide)]
    rw [Finset.sum_range_succ, Finset.sum_range_succ, Finset.sum_range_zero]
    rw [show ([0, 0, 1, 1] : List ℕ).count 0 = 2 from by decide,
      show ([0, 0, 1, 1] : List ℕ).count 1 = 2 from by decide,
      show ([0, 0, 1, 1] : List ℕ).length = 4 from by decide]
    rw [show ((2 : ℕ) : ℝ) / ((4 : ℕ) : ℝ) = 1/2 by norm_num]
    rw [gainTerm_half]
    norm_num

theorem evaluate_matches_specGain_witness :
    Evaluate false [0, 1] 2 []
      = specGain
          (fun c => (([0, 1] : List ℕ).count c : ℝ) / (([0, 1] : List ℕ).length : ℝ))
          2 :=
  (evaluate_matches_specGain.1 [0, 1] 2 [] (by decide) (by decide)).1

/-- Claim C2: for inputs satisfying the preconditions (at least one class,
labels below the class count, non-negative index-aligned weights), Evaluate
lies in the closed interval from minus Range of the class count to zero,
in both modes. -/
theorem evaluate_bounds (b : Bool) (labels : List ℕ) (numClasses : ℕ)
    (w : List ℝ) (hk : 1 ≤ numClasses) (hin : ∀ l ∈ labels, l < numClasses)
    (hw : ∀ x ∈ w, 0 ≤ x) (_hlen : w.length = labels.length) :
    -Range numClasses ≤ Evaluate b labels numClasses w
      ∧ Evaluate b labels numClasses w ≤ 0 := by
  have hRnn : 0 ≤ Range numClasses := by
    unfold Range log2
    exact Real.logb_nonneg (by norm_num) (by exact_mod_cast hk)
  by_cases hne : labels = []
  · subst hne
    have h0 : Evaluate b [] numClasses w = 0 := by simp [Evaluate]
    rw [h0]
    exact ⟨by linarith, le_refl 0⟩
  · cases b with
    | false =>
      have hlenpos : 0 < labels.length := List.length_pos.mpr hne
      have hlenR : (0:ℝ) < (labels.length : ℝ) := by exact_mod_cast hlenpos
      rw [evaluate_false_eq labels numClasses w hne]
      have h0 : ∀ c ∈ Finset.range numClasses,
          0 ≤ (labels.count c : ℝ) / (labels.length : ℝ) :=
        fun c _ => div_nonneg (Nat.cast_nonneg _) hlenR.le
      have h1 : ∑ c in Finset.range numClasses,
          (labels.count c : ℝ) / (labels.length : ℝ) = 1 := by
        rw [← Finset.sum_div, sum_count labels numClasses hin,
          div_self hlenR.ne']
      have hub : ∀ c ∈ Finset.range numClasses,
          (labels.count c : ℝ) / (labels.length : ℝ) ≤ 1 := by
        intro c _
        exact (div_le_one hlenR).mpr (by exact_mod_cast List.count_le_length c labels)
      constructor
      · exact gibbs_gainTerm numClasses _ h0 h1
      · exact sum_gainTerm_nonpos numClasses _ hub
    | true =>
      by_cases ht : totalW labels w = 0
      · rw [evaluate_true_zero labels numClasses w ht]
        exact ⟨by linarith, le_refl 0⟩
      · have htpos : 0 < totalW labels w :=
          lt_of_le_of_ne (totalW_nonneg labels w hw) (Ne.symm ht)
        rw [evaluate_true_eq labels numClasses w hne ht]
        have h0 : ∀ c ∈ Finset.range numClasses,
            0 ≤ wcount labels w c / totalW labels w :=
          fun c _ => div_nonneg (wcount_nonneg labels w c hw) htpos.le
        have h1 : ∑ c in Finset.range numClasses,
            wcount labels w c / totalW labels w = 1 := by
          rw [← Finset.sum_div, sum_wcount labels w numClasses hin, div_self ht]
        have hub : ∀ c ∈ Finset.range numClasses,
            wcount labels w c / totalW labels w ≤ 1 :=
          fun c _ => (div_le_one htpos).mpr (wcount_le_totalW labels w c hw)
        constructor
        · exact gibbs_gainTerm numClasses _ h0 h1
        · exact sum_gainTerm_nonpos numClasses _ hub

theorem evaluate_bounds_witness :
    -Range 2 ≤ Evaluate false [0, 1] 2 [1, 1]
      ∧ Evaluate false [0, 1] 2 [1, 1] ≤ 0 :=
  evaluate_bounds false [0, 1] 2 [1, 1] (by norm_num) (by decide)
    (by norm_num) (by decide)

/-- Claim C8: when there are n classes and the n labels contain each class
exactly once, unweighted Evaluate returns minus the base-2 logarithm of n,
the worst attainable value, equal to minus Range of n. -/
theorem evaluate_uniform_worst (n : ℕ) (labels : List ℕ) (w : List ℝ)
    (hn : 1 ≤ n) (hlen : labels.length = n)
    (hcount : ∀ c < n, labels.count c = 1) :
    Evaluate false labels n w = -log2 (n : ℝ)
      ∧ Evaluate false labels n w = -Range n := by
  have hne : labels ≠ [] := by
    intro h
    rw [h] at hlen
    simp at hlen
    exact absurd hlen.symm (by omega)
  have hnR : (0:ℝ) < (n:ℝ) := by exact_mod_cast hn
  have hmain : Evaluate false labels n w = -log2 (n : ℝ) := by
    rw [evaluate_false_eq labels n w hne]
    have hterm : ∀ c ∈ Finset.range n,
        gainTerm ((labels.count c : ℝ) / (labels.length : ℝ))
          = ((n:ℝ))⁻¹ * -log2 (n : ℝ) := by
      intro c hc
      have h1 : (labels.count c : ℝ) = 1 := by
        rw [hcount c (Finset.mem_range.mp hc)]
        norm_num
      rw [h1, hlen, one_div]
      unfold gainTerm
      rw [if_pos (by positivity), log2_inv_eq]
    rw [Finset.sum_congr rfl hterm, Finset.sum_const, Finset.card_range,
      nsmul_eq_mul, ← mul_assoc, mul_inv_cancel₀ hnR.ne', one_mul]
  exact ⟨hmain, by rw [hmain]; rfl⟩

theorem evaluate_uniform_worst_witness :
    Evaluate false [0, 1] 2 [] = -log2 ((2 : ℕ) : ℝ) :=
  (evaluate_uniform_worst 2 [0, 1] [] (by norm_num) (by decide)
    (by decide)).1

lemma wcount_replicate (labels : List ℕ) (w : ℝ) (c : ℕ) :
    wcount labels (List.replicate labels.length w) c
      = w * (labels.count c : ℝ) := by
  induction labels with
  | nil => simp [wcount]
  | cons a l ih =>
    unfold wcount at ih ⊢
    simp only [List.length_cons, List.replicate_succ, List.zip_cons_cons,
      List.filter_cons, List.count_cons]
    by_cases hac : a = c
    · subst hac
      simp [ih]
      ring
    · have hb : ¬ (c == a) = true := by
        simp only [beq_iff_eq]
        exact fun h => hac h.symm
      simp [hac, hb, ih]

lemma totalW_replicate (labels : List ℕ) (w : ℝ) :
    totalW labels (List.replicate labels.length w)
      = (labels.length : ℝ) * w := by
  induction labels with
  | nil => simp [totalW]
  | cons a l ih =>
    unfold totalW at ih ⊢
    simp only [List.length_cons, List.replicate_succ, List.zip_cons_cons,
      List.map_cons, List.sum_cons, ih]
    push_cast
    ring

/-- Claim C7: weighted Evaluate with every weight equal to one positive
constant agrees with unweighted Evaluate on the same labels and class
count, whatever weight row the unweighted call is handed. -/
theorem evaluate_const_weights (labels : List ℕ) (k : ℕ) (w : ℝ)
    (wu : List ℝ) (hw : 0 < w) :
    Evaluate true labels k (List.replicate labels.length w)
      = Evaluate false labels k wu := by
  by_cases hne : labels = []
  · subst hne
    simp [Evaluate]
  · have hlenpos : 0 < labels.length := List.length_pos.mpr hne
    have hlenR : (0:ℝ) < (labels.length : ℝ) := by exact_mod_cast hlenpos
    have ht : totalW labels (List.replicate labels.length w)
        = (labels.length : ℝ) * w := totalW_replicate labels w
    have ht0 : totalW labels (List.replicate labels.length w) ≠ 0 := by
      rw [ht]
      exact (mul_pos hlenR hw).ne'
    rw [evaluate_true_eq labels k _ hne ht0, evaluate_false_eq labels k wu hne]
    refine Finset.sum_congr rfl (fun c _ => ?_)
    rw [wcount_replicate, ht]
    have hfreq : w * (labels.count c : ℝ) / ((labels.length : ℝ) * w)
        = (labels.count c : ℝ) / (labels.length : ℝ) := by
      rw [mul_comm (labels.length : ℝ) w]
      exact mul_div_mul_left _ _ hw.ne'
    rw [hfreq]

theorem evaluate_const_weights_witness :
    Evaluate true [0, 0, 1] 2
        (List.replicate ([0, 0, 1] : List ℕ).length (2 : ℝ))
      = Evaluate false [0, 0, 1] 2 [] :=
  evaluate_const_weights [0, 0, 1] 2 2 [] (by norm_num)

/-- Claim C9: the explicit guard on positive frequency makes any
non-positive frequency contribute exactly zero to the sum, and enlarging
the class count past a bound on all labels leaves Evaluate unchanged in
both modes, absent classes contributing nothing. -/
theorem guard_and_class_extension :
    (∀ x : ℝ, x ≤ 0 → gainTerm x = 0)
      ∧ (∀ (b : Bool) (labels : List ℕ) (k k2 : ℕ) (w : List ℝ),
          (∀ l ∈ labels, l < k) → k ≤ k2 →
          Evaluate b labels k2 w = Evaluate b labels k w) := by
  constructor
  · exact fun x hx => gainTerm_of_nonpos hx
  · intro b labels k k2 w hin hk
    by_cases hne : labels = []
    · subst hne
      simp [Evaluate]
    · have hsub : Finset.range k ⊆ Finset.range k2 := Finset.range_subset.mpr hk
      have hcount0 : ∀ c, k ≤ c → labels.count c = 0 := by
        intro c hc
        exact List.count_eq_zero.mpr
          (fun hmem => absurd (hin c hmem) (not_lt.mpr hc))
      have hwcount0 : ∀ c, k ≤ c → wcount labels w c = 0 := by
        intro c hc
        unfold wcount
        rw [List.filter_eq_nil_iff.mpr ?_]
        · simp
        · intro p hp hpc
          have hlt : p.1 < k := hin p.1 (List.of_mem_zip hp).1
          have : p.1 = c := by simpa using hpc
          omega
      cases b with
      | false =>
        rw [evaluate_false_eq labels k w hne, evaluate_false_eq labels k2 w hne]
        refine (Finset.sum_subset hsub ?_).symm
        intro c _ hck
        rw [hcount0 c (not_lt.mp (fun h => hck (Finset.mem_range.mpr h)))]
        rw [Nat.cast_zero, zero_div]
        exact gainTerm_of_nonpos (le_refl 0)
      | true =>
        by_cases ht : totalW labels w = 0
        · rw [evaluate_true_zero labels k w ht, evaluate_true_zero labels k2 w ht]
        · rw [evaluate_true_eq labels k w hne ht,
            evaluate_true_eq labels k2 w hne ht]
          refine (Finset.sum_subset hsub ?_).symm
          intro c _ hck
          rw [hwcount0 c (not_lt.mp (fun h => hck (Finset.mem_range.mpr h))),
            zero_div]
          exact gainTerm_of_nonpos (le_refl 0)

theorem guard_and_class_extension_witness :
    Evaluate false [0] 3 [] = Evaluate false [0] 1 [] :=
  guard_and_class_extension.2 false [0] 1 3 [] (by decide) (by norm_num)

/-- Claim C10: in weighted mode, appending a point with weight exactly
zero and an in-range label to the rows leaves Evaluate unchanged: it adds
zero to the per-class weighted count and to the total weight. -/
theorem append_zero_weight_noop (labels : List ℕ) (w : List ℝ) (k l : ℕ)
    (_hl : l < k) (hlen : w.length = labels.length) :
    Evaluate true (labels ++ [l]) k (w ++ [0]) = Evaluate true labels k w := by
  have hzip : (labels ++ [l]).zip (w ++ [0]) = labels.zip w ++ [(l, 0)] := by
    rw [List.zip_append hlen.symm]
    simp
  have htotal : totalW (labels ++ [l]) (w ++ [0]) = totalW labels w := by
    unfold totalW
    rw [hzip]
    simp
  have hwc : ∀ c, wcount (labels ++ [l]) (w ++ [0]) c = wcount labels w c := by
    intro c
    unfold wcount
    rw [hzip, List.filter_append, List.map_append, List.sum_append]
    by_cases hlc : l = c <;> simp [List.filter_cons, hlc]
  by_cases hne : labels = []
  · subst hne
    have hw0 : w = [] := List.length_eq_zero.mp (by simpa using hlen)
    subst hw0
    have ht : totalW ([] ++ [l]) ([] ++ [(0:ℝ)]) = 0 := by
      unfold totalW
      simp
    rw [evaluate_true_zero _ _ _ ht]
    simp [Evaluate]
  · by_cases ht : totalW labels w = 0
    · rw [evaluate_true_zero _ _ _ (htotal.trans ht), evaluate_true_zero _ _ _ ht]
    · have hne2 : labels ++ [l] ≠ [] := by simp
      rw [evaluate_true_eq _ _ _ hne2 (fun h => ht (htotal.symm.trans h)),
        evaluate_true_eq _ _ _ hne ht]
      refine Finset.sum_congr rfl (fun c _ => ?_)
      rw [hwc, htotal]

theorem append_zero_weight_noop_witness :
    Evaluate true ([0] ++ [1]) 2 ([1] ++ [0]) = Evaluate true [0] 2 [1] :=
  append_zero_weight_noop [0] [1] 2 1 (by norm_num) (by decide)

lemma pure_eval_zero (b : Bool) (labels : List ℕ) (c k : ℕ) (w : List ℝ)
    (hne : labels ≠ []) (hpure : ∀ x ∈ labels, x = c) :
    Evaluate b labels k w = 0 := by
  have hlenpos : 0 < labels.length := List.length_pos.mpr hne
  have hlenR : (0:ℝ) < (labels.length : ℝ) := by exact_mod_cast hlenpos
  have hcount0 : ∀ d, d ≠ c → labels.count d = 0 := fun d hd =>
    List.count_eq_zero.mpr (fun hmem => hd (hpure d hmem))
  have hcountc : labels.count c = labels.length :=
    List.count_eq_length.mpr (fun x hx => (hpure x hx).symm)
  cases b with
  | false =>
    rw [evaluate_false_eq labels k w hne]
    apply Finset.sum_eq_zero
    intro d _
    by_cases hdc : d = c
    · subst hdc
      rw [hcountc, div_self hlenR.ne']
      unfold gainTerm log2
      rw [if_pos one_pos, Real.logb_one, mul_zero]
    · rw [hcount0 d hdc, Nat.cast_zero, zero_div]
      exact gainTerm_of_nonpos (le_refl 0)
  | true =>
    by_cases ht : totalW labels w = 0
    · exact evaluate_true_zero labels k w ht
    · rw [evaluate_true_eq labels k w hne ht]
      apply Finset.sum_eq_zero
      intro d _
      by_cases hdc : d = c
      · subst hdc
        have hwc : wcount labels w d = totalW labels w := by
          unfold wcount totalW
          rw [List.filter_eq_self.mpr
            (fun p hp => by simpa using hpure p.1 (List.of_mem_zip hp).1)]
        rw [hwc, div_self ht]
        unfold gainTerm log2
        rw [if_pos one_pos, Real.logb_one, mul_zero]
      · have hwc0 : wcount labels w d = 0 := by
          unfold wcount
          rw [List.filter_eq_nil_iff.mpr ?_]
          · simp
          · intro p hp hpd
            have h1 : p.1 = c := hpure p.1 (List.of_mem_zip hp).1
            have h2 : p.1 = d := by simpa using hpd
            exact hdc (h2.symm.trans h1)
        rw [hwc0, zero_div]
        exact gainTerm_of_nonpos (le_refl 0)

/-- Claim C5, counterexample: in weighted mode the all-zero weight row
[0, 0] on the row [0, 1] evaluates to zero although that row is neither
empty nor all of one class, so the only-if direction of the claim, stated
over both modes, fails on the code. -/
theorem evaluate_zero_impure :
    Evaluate true [0, 1] 2 [0, 0] = 0
      ∧ ([0, 1] : List ℕ) ≠ []
      ∧ ¬ ∃ c, ∀ x ∈ ([0, 1] : List ℕ), x = c := by
  refine ⟨?_, by simp, ?_⟩
  · apply evaluate_true_zero
    unfold totalW
    norm_num
  · rintro ⟨c, hc⟩
    have h0 := hc 0 (by simp)
    have h1 := hc 1 (by simp)
    omega

/-- Claim C5 (amended): every non-empty row all of one class evaluates to
zero in both modes; and in unweighted mode, for labels below the class
count, the result is zero exactly when the row is empty or all labels
agree. (The only-if direction does not extend to weighted mode, where a
zero total weight yields zero on impure rows.) -/
theorem evaluate_zero_iff_pure :
    (∀ (b : Bool) (labels : List ℕ) (c k : ℕ) (w : List ℝ), labels ≠ [] →
        (∀ x ∈ labels, x = c) → Evaluate b labels k w = 0)
      ∧ (∀ (labels : List ℕ) (k : ℕ) (w : List ℝ), (∀ x ∈ labels, x < k) →
          (Evaluate false labels k w = 0 ↔
            labels = [] ∨ ∃ c, ∀ x ∈ labels, x = c)) := by
  constructor
  · exact fun b labels c k w hne hpure => pure_eval_zero b labels c k w hne hpure
  · intro labels k w hin
    constructor
    · intro h0
      by_cases hne : labels = []
      · exact Or.inl hne
      · right
        have hlenpos : 0 < labels.length := List.length_pos.mpr hne
        have hlenR : (0:ℝ) < (labels.length : ℝ) := by exact_mod_cast hlenpos
        rw [evaluate_false_eq labels k w hne] at h0
        have hnonpos : ∀ c ∈ Finset.range k,
            gainTerm ((labels.count c : ℝ) / (labels.length : ℝ)) ≤ 0 :=
          fun c _ => gainTerm_nonpos
            ((div_le_one hlenR).mpr
              (by exact_mod_cast List.count_le_length c labels))
        have hterms := (Finset.sum_eq_zero_iff_of_nonpos hnonpos).mp h0
        obtain ⟨c0, hc0mem, hc0⟩ : ∃ c ∈ Finset.range k, labels.count c ≠ 0 := by
          by_contra hall
          push_neg at hall
          have hzero : ∑ c in Finset.range k, (labels.count c : ℝ) = 0 :=
            Finset.sum_eq_zero (fun c hc => by rw [hall c hc]; norm_num)
          rw [sum_count labels k hin] at hzero
          exact hlenR.ne' hzero
        have hfpos : 0 < (labels.count c0 : ℝ) / (labels.length : ℝ) := by
          apply div_pos _ hlenR
          exact_mod_cast Nat.pos_of_ne_zero hc0
        have hterm := hterms c0 hc0mem
        unfold gainTerm at hterm
        rw [if_pos hfpos] at hterm
        have hf1 : (labels.count c0 : ℝ) / (labels.length : ℝ) = 1 := by
          rcases mul_eq_zero.mp hterm with hf0 | hlog
          · exact absurd hf0 hfpos.ne'
          · unfold log2 at hlog
            rcases Real.logb_eq_zero.mp hlog with h | h | h | h | h | h
            · norm_num at h
            · norm_num at h
            · norm_num at h
            · exact absurd h hfpos.ne'
            · exact h
            · rw [h] at hfpos
              norm_num at hfpos
        have hcl : labels.count c0 = labels.length := by
          have h := (div_eq_one_iff_eq hlenR.ne').mp hf1
          exact_mod_cast h
        exact ⟨c0, fun x hx => (List.count_eq_length.mp hcl x hx).symm⟩
    · intro h
      rcases h with hemp | ⟨c, hc⟩
      · subst hemp
        simp [Evaluate]
      · by_cases hne : labels = []
        · subst hne
          simp [Evaluate]
        · exact pure_eval_zero false labels c k w hne hc

theorem evaluate_zero_iff_pure_witness :
    Evaluate false [1, 1] 2 [] = 0 :=
  evaluate_zero_iff_pure.1 false [1, 1] 1 2 [] (by simp) (by decide)

end InformationGain
